import Mathlib

/-!
# ThreadAlt: the turn-gated colour lock

Shallow embedding of `ResourceManager` (`src/codeLinuxThreads.cpp`, lines 9-67;
`src/codeWindowsThreads.cpp`, lines 14-85 has the same body) and of the harness
(`thread_function` and `main`).

* The three data members become the record `ResourceManager`.  The two
  `std::atomic<int>` members are integers kept in the 32-bit range: `++` and
  `--` on `std::atomic<int>` wrap around (no undefined behaviour), which is
  `wrap32`.
* `cv.wait(lock, pred)` returns exactly in a state where `pred` holds while the
  mutex is held; the two predicates are `turn_ready` and `color_ready`, the
  code after the waits (lines 36-40) is `activate`.
* Whole bodies run under the mutex, so a concurrent execution is an
  interleaving of atomic steps (`step`), one per passage through a wait or
  through `release`.
-/

set_option linter.unusedVariables false

namespace ThreadAlt

/-- Colour currently accessing the resource: `enum Color { NONE, WHITE, BLACK }`. -/
inductive Color
  | NONE
  | WHITE
  | BLACK
  deriving DecidableEq

/-- Smallest value of a 32-bit `int`. -/
def INT_MIN : Int := -2147483648

/-- Largest value of a 32-bit `int`. -/
def INT_MAX : Int := 2147483647

/-- Reduction of an integer into the 32-bit signed range, the result of
arithmetic on `std::atomic<int>`. -/
def wrap32 (x : Int) : Int := (x + 2147483648) % 4294967296 - 2147483648

/-- Data members of `ResourceManager` (the mutex and the condition variable
carry no data). -/
structure ResourceManager where
  current_color : Color
  active_threads : Int
  next_thread_id : Int
  deriving DecidableEq

/-- State built by the default member initialisers (lines 15, 18, 19). -/
def ResourceManager.init : ResourceManager :=
  { current_color := .NONE, active_threads := 0, next_thread_id := 0 }

/-- The expression `is_white ? WHITE : BLACK`. -/
def requested (is_white : Bool) : Color :=
  if is_white then .WHITE else .BLACK

/-- Predicate of the first wait of `acquire` (lines 26-28). -/
def turn_ready (rm : ResourceManager) (thread_id : Int) : Bool :=
  rm.next_thread_id == thread_id

/-- Predicate of the second wait of `acquire` (lines 31-34). -/
def color_ready (rm : ResourceManager) (is_white : Bool) : Bool :=
  rm.current_color == .NONE || rm.current_color == requested is_white

/-- Lines 36-40 of `acquire`: take the colour when the lock has none, then
`active_threads++`. -/
def activate (rm : ResourceManager) (is_white : Bool) : ResourceManager :=
  { rm with
    current_color :=
      if rm.current_color == .NONE then requested is_white else rm.current_color
    active_threads := wrap32 (rm.active_threads + 1) }

/-- A call of `acquire` that meets the state `rm` and is not interleaved with
another thread: `some` of the state it returns in, `none` when one of the two
waits suspends the caller. -/
def acquire (rm : ResourceManager) (is_white : Bool) (thread_id : Int) :
    Option ResourceManager :=
  if turn_ready rm thread_id then
    if color_ready rm is_white then some (activate rm is_white) else none
  else none

/-- Body of `release` (lines 43-58): `active_threads--`, reset of the colour
when the count is zero, `next_thread_id = (thread_id + 1) % 10` with the
truncating remainder of C++; `thread_id + 1` is 32-bit `int` arithmetic, which
leaves the range only at `thread_id = INT_MAX`.  The wake-up carries no data. -/
def release (rm : ResourceManager) (is_white : Bool) (thread_id : Int) :
    ResourceManager :=
  let active := wrap32 (rm.active_threads - 1)
  { current_color := if active == 0 then .NONE else rm.current_color
    active_threads := active
    next_thread_id := Int.tmod (wrap32 (thread_id + 1)) 10 }

/-- Harness body `acquire; use_resource; release` (lines 73-75) run by one
thread with no other thread interfering: `none` when `acquire` would suspend. -/
def cycle (rm : ResourceManager) (is_white : Bool) (id : Int) :
    Option ResourceManager :=
  (acquire rm is_white id).map fun held => release held is_white id

/-- Cycles of the identities `first, first + 1, ...` (`count` of them) one
after the other, identity `i` using the colour `colors i`. -/
def cycles (colors : Nat → Bool) (rm : ResourceManager) (first : Nat) :
    Nat → Option ResourceManager
  | 0 => some rm
  | count + 1 =>
    (cycle rm (colors first) (first : Int)).bind fun rm' =>
      cycles colors rm' (first + 1) count

/-! ## The harness and the interleaving semantics -/

/-- Arguments `(is_white, id)` with which `thread_function` calls first
`acquire` and then `release`. -/
structure Participant where
  is_white : Bool
  id : Int
  deriving DecidableEq

/-- Number of threads created by `main` (line 83). -/
def NUM_THREADS : Nat := 10

/-- The loop of `main` (lines 87-90) for `n` threads: thread `i` runs
`thread_function(rm, i % 2 == 0, i)`. -/
def spawn (n : Nat) : List Participant :=
  (List.range n).map fun (i : Nat) => { is_white := i % 2 == 0, id := (i : Int) }

/-- Colour rule of `main`: the expression `i % 2 == 0` (line 89). -/
def parity (i : Nat) : Bool := i % 2 == 0

/-- Thread with identity `i`, its colour taken from `colors`; `main` creates
`worker parity i`. -/
def worker (colors : Nat → Bool) (i : Nat) : Participant :=
  { is_white := colors i, id := (i : Int) }

/-- Threads with the identities `j, ..., n - 1`. -/
def workersFrom (colors : Nat → Bool) (j n : Nat) : List Participant :=
  (List.range' j (n - j)).map (worker colors)

/-- Threads of the reference configuration. -/
def main_threads : List Participant := spawn NUM_THREADS

/-- Lock together with the position of every participant in
`thread_function`.  `log` is a history variable: the participants in the order
in which their `acquire` returned. -/
structure Sys where
  rm : ResourceManager
  /-- Not yet past the first wait of `acquire`. -/
  pending : List Participant
  /-- Past the first wait, suspended in the second wait. -/
  parked : List Participant
  /-- Returned from `acquire`, `release` not yet called. -/
  holders : List Participant
  log : List Participant
  deriving DecidableEq

/-- Start of a run: fresh lock, nobody has entered `acquire`. -/
def Sys.start (ps : List Participant) : Sys :=
  { rm := ResourceManager.init, pending := ps, parked := [], holders := [], log := [] }

/-- Atomic steps of a participant, one per critical section it runs through. -/
inductive Action
  /-- The first wait of `acquire` lets the participant through; the second
  wait is evaluated under the same hold of the mutex. -/
  | enter (p : Participant)
  /-- A participant suspended in the second wait wakes up and passes it. -/
  | wake (p : Participant)
  /-- The participant calls `release` with its own arguments. -/
  | release (p : Participant)
  deriving DecidableEq

/-- Effect of one step, `none` when the step is not enabled. -/
def step (s : Sys) : Action → Option Sys
  | .enter p =>
    if p ∈ s.pending ∧ turn_ready s.rm p.id = true then
      if color_ready s.rm p.is_white then
        some { s with rm := activate s.rm p.is_white
                      pending := s.pending.erase p
                      holders := p :: s.holders
                      log := s.log ++ [p] }
      else
        some { s with pending := s.pending.erase p, parked := p :: s.parked }
    else none
  | .wake p =>
    if p ∈ s.parked ∧ color_ready s.rm p.is_white = true then
      some { s with rm := activate s.rm p.is_white
                    parked := s.parked.erase p
                    holders := p :: s.holders
                    log := s.log ++ [p] }
    else none
  | .release p =>
    if p ∈ s.holders then
      some { s with rm := release s.rm p.is_white p.id
                    holders := s.holders.erase p }
    else none

/-- Execution of a schedule, `none` as soon as one of its steps is not
enabled. -/
def run (s : Sys) : List Action → Option Sys
  | [] => some s
  | a :: as => (step s a).bind fun t => run t as

/-- States reachable from `s0` by enabled steps. -/
inductive Reach (s0 : Sys) : Sys → Prop
  | start : Reach s0 s0
  | next {s t : Sys} (a : Action) : Reach s0 s → step s a = some t → Reach s0 t

/-- States reachable from `s0` by enabled steps along which at most `bound`
participants hold the resource at a time. -/
inductive ReachWithin (bound : Nat) (s0 : Sys) : Sys → Prop
  | start : ReachWithin bound s0 s0
  | next {s t : Sys} (a : Action) : ReachWithin bound s0 s → step s a = some t →
      t.holders.length ≤ bound → ReachWithin bound s0 t

/-- State after `k` out of `total` callers of `acquire(true, 0)` have been
granted and none has released. -/
def pileUp (total k : Nat) : Sys :=
  { rm := { current_color := if k = 0 then .NONE else .WHITE
            active_threads := wrap32 (k : Int)
            next_thread_id := 0 }
    pending := List.replicate (total - k) { is_white := true, id := 0 }
    parked := []
    holders := List.replicate k { is_white := true, id := 0 }
    log := List.replicate k { is_white := true, id := 0 } }

/-- Run of the threads `0, ..., n - 1` and of the further participants
`extra`: threads `0, ..., k - 1` have completed their cycle and nobody holds the
resource. -/
def idleAt (colors : Nat → Bool) (n : Nat) (extra : List Participant) (k : Nat) : Sys :=
  { rm := { current_color := .NONE, active_threads := 0
            next_thread_id := ((k % 10 : Nat) : Int) }
    pending := workersFrom colors k n ++ extra
    parked := []
    holders := []
    log := workersFrom colors 0 k }

/-- Run of the threads `0, ..., n - 1` and of the further participants
`extra`: threads `0, ..., k - 1` have completed their cycle and thread `k` holds
the resource. -/
def heldAt (colors : Nat → Bool) (n : Nat) (extra : List Participant) (k : Nat) : Sys :=
  { rm := { current_color := requested (colors k), active_threads := 1
            next_thread_id := (k : Int) }
    pending := workersFrom colors (k + 1) n ++ extra
    parked := []
    holders := [worker colors k]
    log := workersFrom colors 0 (k + 1) }

/-- Schedule in which the threads `0, ..., n - 1` run their cycles one after
the other. -/
def roundRobin (colors : Nat → Bool) (n : Nat) : List Action :=
  (List.range n).flatMap fun i =>
    [Action.enter (worker colors i), Action.release (worker colors i)]

/-- Consistency of the lock with the set of holders: the counter is the
number of holders reduced to 32 bits, an unheld lock has no colour, and every
holder was granted with the current colour. -/
def Coherent (s : Sys) : Prop :=
  s.rm.active_threads = wrap32 (s.holders.length : Int) ∧
  (s.holders = [] → s.rm.current_color = .NONE) ∧
  ∀ p ∈ s.holders, requested p.is_white = s.rm.current_color

/-- Every participant has returned from `release`. -/
def Sys.finished (s : Sys) : Bool :=
  s.pending.isEmpty && s.parked.isEmpty && s.holders.isEmpty

/-- Current colour `NONE` and no active thread. -/
def ResourceManager.idle (rm : ResourceManager) : Bool :=
  rm.current_color == .NONE && rm.active_threads == 0

/-- Threads of the reference configuration without the thread of identity
`k`. -/
def withoutIdentity (colors : Nat → Bool) (k : Nat) : List Participant :=
  ((List.range NUM_THREADS).filter fun i => i != k).map (worker colors)

/-! ## The Windows variant (`src/codeWindowsThreads.cpp`)

The class has the same data members with the same initialisers (lines 20, 23,
24), so its states are the records `ResourceManager`; the critical section and
the condition variable carry no data. -/

/-- State after the constructor of the Windows variant (lines 20-30). -/
def Windows.init : ResourceManager :=
  { current_color := .NONE, active_threads := 0, next_thread_id := 0 }

/-- Condition of the first `while` loop of the Windows `acquire` (line 40):
the caller sleeps as long as it holds. -/
def Windows.turn_sleeps (rm : ResourceManager) (thread_id : Int) : Bool :=
  rm.next_thread_id != thread_id

/-- Condition of the second `while` loop of the Windows `acquire` (lines
45-46). -/
def Windows.color_sleeps (rm : ResourceManager) (is_white : Bool) : Bool :=
  !(rm.current_color == .NONE ||
    rm.current_color == (if is_white then Color.WHITE else Color.BLACK))

/-- Lines 50-54 of the Windows `acquire`. -/
def Windows.activate (rm : ResourceManager) (is_white : Bool) : ResourceManager :=
  { rm with
    current_color :=
      if rm.current_color == .NONE then (if is_white then Color.WHITE else Color.BLACK)
      else rm.current_color
    active_threads := wrap32 (rm.active_threads + 1) }

/-- A call of the Windows `acquire` that meets the state `rm` and is not
interleaved with another thread: `none` when one of the two loops puts the
caller to sleep. -/
def Windows.acquire (rm : ResourceManager) (is_white : Bool) (thread_id : Int) :
    Option ResourceManager :=
  if Windows.turn_sleeps rm thread_id then none
  else if Windows.color_sleeps rm is_white then none
  else some (Windows.activate rm is_white)

/-- Body of the Windows `release` (lines 59-76). -/
def Windows.release (rm : ResourceManager) (is_white : Bool) (thread_id : Int) :
    ResourceManager :=
  let active := wrap32 (rm.active_threads - 1)
  { current_color := if active == 0 then .NONE else rm.current_color
    active_threads := active
    next_thread_id := Int.tmod (wrap32 (thread_id + 1)) 10 }

/-! ## Threads with programs: `acquire` in two stages

One thread per identity (so identities are distinct), each with a fixed colour
and a program of calls, all made with its own `(is_white, id)`.  A call of
`acquire` is taken in two steps: the first wait lets the thread through
(`pass`), later the second wait lets it through and lines 36-40 run
(`commit`). -/

/-- Calls a thread makes on the lock. -/
inductive Call
  | acquire
  | release
  deriving DecidableEq

/-- Position of one thread. -/
structure Thread where
  is_white : Bool
  /-- Calls still to be made, the first one possibly under way. -/
  todo : List Call
  /-- Inside `acquire`, past the first wait and not yet past the second. -/
  between : Bool
  /-- Number of grants not yet released. -/
  held : Nat

/-- Lock and the thread of every identity. -/
structure Pool where
  rm : ResourceManager
  threads : Int → Thread

/-- Fresh lock, every thread at the start of its program. -/
def Pool.start (colors : Int → Bool) (programs : Int → List Call) : Pool :=
  { rm := ResourceManager.init
    threads := fun id =>
      { is_white := colors id, todo := programs id, between := false, held := 0 } }

/-- Replacement of the thread of identity `id`. -/
def Pool.put (P : Pool) (id : Int) (t : Thread) : Int → Thread :=
  fun j => if j = id then t else P.threads j

/-- Steps of the thread of identity `id`. -/
inductive Stage
  /-- The first wait of `acquire` is passed. -/
  | pass (id : Int)
  /-- The second wait of `acquire` is passed and the grant is made. -/
  | commit (id : Int)
  /-- A thread that holds the resource runs `release`. -/
  | release (id : Int)
  deriving DecidableEq

/-- Effect of one step of a thread, `none` when the step is not enabled. -/
def stage (P : Pool) : Stage → Option Pool
  | .pass id =>
    match (P.threads id).todo with
    | Call.acquire :: _ =>
      if (P.threads id).between = false ∧ turn_ready P.rm id = true then
        some { P with threads := P.put id { P.threads id with between := true } }
      else none
    | _ => none
  | .commit id =>
    match (P.threads id).todo with
    | Call.acquire :: rest =>
      if (P.threads id).between = true ∧
          color_ready P.rm (P.threads id).is_white = true then
        some { rm := activate P.rm (P.threads id).is_white
               threads := P.put id { P.threads id with
                 todo := rest, between := false, held := (P.threads id).held + 1 } }
      else none
    | _ => none
  | .release id =>
    match (P.threads id).todo with
    | Call.release :: rest =>
      if 0 < (P.threads id).held then
        some { rm := release P.rm (P.threads id).is_white id
               threads := P.put id { P.threads id with
                 todo := rest, held := (P.threads id).held - 1 } }
      else none
    | _ => none

/-- Execution of a schedule of thread steps. -/
def stages (P : Pool) : List Stage → Option Pool
  | [] => some P
  | a :: as => (stage P a).bind fun Q => stages Q as

/-- Pools reachable from `P0` by enabled thread steps. -/
inductive Staged (P0 : Pool) : Pool → Prop
  | start : Staged P0 P0
  | next {P Q : Pool} (a : Stage) : Staged P0 P → stage P a = some Q → Staged P0 Q

/-- Predicate of the single wait that the design notes of the specification
propose in place of the two waits:
`(turnCursor == id) && (currentColor ∈ {None, color})`. -/
def compound_ready (rm : ResourceManager) (is_white : Bool) (id : Int) : Bool :=
  rm.next_thread_id == id &&
    (rm.current_color == .NONE || rm.current_color == requested is_white)

/-- A program in which `acquire` and `release` alternate: no `acquire` while
the thread holds the resource, no `release` while it does not (`held` is the
number of grants the thread holds at the start). -/
def alternating : Nat → List Call → Bool
  | _, [] => true
  | held, Call.acquire :: rest => held == 0 && alternating 1 rest
  | held, Call.release :: rest => held == 1 && alternating 0 rest

/-- Colours of the threads of a run in which thread 0 acquires twice: threads
0 and 1 are white, thread 2 is black. -/
def nestedColors (id : Int) : Bool := id != 2

/-- Programs of the threads of a run in which thread 0 acquires twice before
it releases twice; threads 1 and 2 make one cycle. -/
def nestedPrograms (id : Int) : List Call :=
  if id = 0 then [.acquire, .acquire, .release, .release]
  else if id = 1 ∨ id = 2 then [.acquire, .release]
  else []

/-- Schedule of the run of `nestedPrograms` up to the moment where thread 2,
suspended in the second wait while threads 0 and 1 were white holders, can be
granted although the cursor has moved back to 1. -/
def nestedSchedule : List Stage :=
  [.pass 0, .commit 0, .pass 0, .commit 0, .release 0, .pass 1, .commit 1, .release 1,
   .pass 2, .release 0]

/-- Programs of the harness: one cycle for each identity `0, ..., 9`. -/
def harnessPrograms (id : Int) : List Call :=
  if 0 ≤ id ∧ id < 10 then [.acquire, .release] else []

/-- Invariant of the runs with alternating programs: every thread holds at
most one grant, what is left of its program alternates, a thread between the
two waits holds nothing and is still in its `acquire`, and the cursor is the
identity of any thread that is between the waits or holds the resource. -/
def Orderly (P : Pool) : Prop :=
  ∀ id : Int,
    (P.threads id).held ≤ 1 ∧
    alternating (P.threads id).held (P.threads id).todo = true ∧
    ((P.threads id).between = true →
      (P.threads id).held = 0 ∧ ∃ rest, (P.threads id).todo = Call.acquire :: rest) ∧
    (((P.threads id).between = true ∨ 0 < (P.threads id).held) →
      P.rm.next_thread_id = id)

/-! ## Arithmetic of the 32-bit counters -/

theorem INT_MIN_eq : INT_MIN = -2147483648 := rfl

theorem INT_MAX_eq : INT_MAX = 2147483647 := rfl

theorem wrap32_of_range {x : Int} (lo : INT_MIN ≤ x) (hi : x ≤ INT_MAX) : wrap32 x = x := by
  have e1 := INT_MIN_eq
  have e2 := INT_MAX_eq
  unfold wrap32
  omega

theorem wrap32_range (x : Int) : INT_MIN ≤ wrap32 x ∧ wrap32 x ≤ INT_MAX := by
  unfold INT_MIN INT_MAX wrap32
  omega

theorem requested_ne_NONE (is_white : Bool) : requested is_white ≠ Color.NONE := by
  cases is_white <;> simp [requested]

theorem turn_ready_iff (rm : ResourceManager) (thread_id : Int) :
    turn_ready rm thread_id = true ↔ rm.next_thread_id = thread_id := by
  simp [turn_ready]

theorem color_ready_iff (rm : ResourceManager) (is_white : Bool) :
    color_ready rm is_white = true ↔
      rm.current_color = Color.NONE ∨ rm.current_color = requested is_white := by
  simp [color_ready]

/-- Colour after the grant: the colour of the caller. -/
theorem activate_color (rm : ResourceManager) (is_white : Bool)
    (h : color_ready rm is_white = true) :
    (activate rm is_white).current_color = requested is_white := by
  rcases (color_ready_iff rm is_white).1 h with h | h <;> simp [activate, h]

theorem activate_active (rm : ResourceManager) (is_white : Bool) :
    (activate rm is_white).active_threads = wrap32 (rm.active_threads + 1) := rfl

theorem activate_next (rm : ResourceManager) (is_white : Bool) :
    (activate rm is_white).next_thread_id = rm.next_thread_id := rfl

theorem acquire_eq_some (rm rm' : ResourceManager) (is_white : Bool) (thread_id : Int) :
    acquire rm is_white thread_id = some rm' ↔
      turn_ready rm thread_id = true ∧ color_ready rm is_white = true ∧
        rm' = activate rm is_white := by
  unfold acquire
  by_cases h1 : turn_ready rm thread_id = true <;>
    by_cases h2 : color_ready rm is_white = true <;> simp [h1, h2, eq_comm]

theorem release_active (rm : ResourceManager) (is_white : Bool) (thread_id : Int) :
    (release rm is_white thread_id).active_threads = wrap32 (rm.active_threads - 1) := rfl

theorem release_next (rm : ResourceManager) (is_white : Bool) (thread_id : Int) :
    (release rm is_white thread_id).next_thread_id =
      Int.tmod (wrap32 (thread_id + 1)) 10 := rfl

theorem release_color (rm : ResourceManager) (is_white : Bool) (thread_id : Int) :
    (release rm is_white thread_id).current_color =
      if wrap32 (rm.active_threads - 1) = 0 then Color.NONE else rm.current_color := by
  simp [release]

theorem tmod_succ_ten (id : Int) (h0 : 0 ≤ id) :
    Int.tmod (id + 1) 10 = (id + 1) % 10 :=
  Int.tmod_eq_emod (by omega) (by omega)

/-- Below `INT_MAX` the addition `thread_id + 1` of `release` does not leave
the 32-bit range. -/
theorem wrap32_succ_id (id : Int) (lo : INT_MIN ≤ id) (hi : id < INT_MAX) :
    wrap32 (id + 1) = id + 1 := by
  have e1 := INT_MIN_eq
  have e2 := INT_MAX_eq
  apply wrap32_of_range <;> omega

/-- Cursor stored by `release` for a non-negative identity below `INT_MAX`. -/
theorem next_cursor_eq (id : Int) (h0 : 0 ≤ id) (hi : id < INT_MAX) :
    Int.tmod (wrap32 (id + 1)) 10 = (id + 1) % 10 := by
  have e1 := INT_MIN_eq
  rw [wrap32_succ_id id (by omega) hi]
  exact tmod_succ_ten id h0

/-- Cursor stored by `release` at `thread_id = INT_MAX`: the addition wraps
to `INT_MIN`, whose remainder is `-8`. -/
theorem next_cursor_at_INT_MAX : Int.tmod (wrap32 (INT_MAX + 1)) 10 = -8 := by
  decide

/-- Cursor stored by `release` for the identities of the ring. -/
theorem next_cursor_nat (k : Nat) (hk : k < 10) :
    Int.tmod (wrap32 ((k : Int) + 1)) 10 = (((k + 1) % 10 : Nat) : Int) := by
  have e2 := INT_MAX_eq
  rw [next_cursor_eq _ (by omega) (by omega)]
  omega

/-! ## Single calls of `acquire` and `release` -/

/-- C6: for every prior state and every identity `0 ≤ id < 10`, `release` sets
`next_thread_id` to `(id + 1) mod 10` whatever the prior cursor, colour and
count were; the cursor stays in `[0, 10)`, and identity 9 sets it to 0. -/
theorem release_sets_cursor (rm : ResourceManager) (is_white : Bool) (id : Int)
    (h0 : 0 ≤ id) (h10 : id < 10) :
    (release rm is_white id).next_thread_id = (id + 1) % 10 ∧
    0 ≤ (release rm is_white id).next_thread_id ∧
    (release rm is_white id).next_thread_id < 10 ∧
    (id = 9 → (release rm is_white id).next_thread_id = 0) := by
  have e2 := INT_MAX_eq
  rw [release_next, next_cursor_eq id h0 (by omega)]
  omega

theorem release_sets_cursor_witness :
    ((0 : Int) ≤ 9 ∧ (9 : Int) < 10) ∧
    (release { current_color := .WHITE, active_threads := 3, next_thread_id := 4 }
        true 9).next_thread_id = (9 + 1) % 10 ∧
    0 ≤ (release { current_color := .WHITE, active_threads := 3, next_thread_id := 4 }
        true 9).next_thread_id ∧
    (release { current_color := .WHITE, active_threads := 3, next_thread_id := 4 }
        true 9).next_thread_id < 10 ∧
    ((9 : Int) = 9 →
      (release { current_color := .WHITE, active_threads := 3, next_thread_id := 4 }
        true 9).next_thread_id = 0) :=
  ⟨by decide, release_sets_cursor _ true 9 (by decide) (by decide)⟩

/-- C9: from a state with `active_threads = n ≥ 1` (a value of type `int`) and
`current_color = c`, `release` yields `active_threads = n - 1`; the colour
becomes `NONE` when `n = 1` and stays `c` when `n > 1`. -/
theorem release_effect (rm : ResourceManager) (is_white : Bool) (thread_id : Int)
    (h1 : 1 ≤ rm.active_threads) (hi : rm.active_threads ≤ INT_MAX) :
    (release rm is_white thread_id).active_threads = rm.active_threads - 1 ∧
    (rm.active_threads = 1 →
      (release rm is_white thread_id).current_color = .NONE) ∧
    (1 < rm.active_threads →
      (release rm is_white thread_id).current_color = rm.current_color) := by
  have hw : wrap32 (rm.active_threads - 1) = rm.active_threads - 1 := by
    have e1 := INT_MIN_eq
    have e2 := INT_MAX_eq
    apply wrap32_of_range <;> omega
  rw [release_active, release_color, hw]
  refine ⟨rfl, ?_, ?_⟩
  · intro h
    simp [h]
  · intro h
    have : rm.active_threads - 1 ≠ 0 := by omega
    simp [this]

theorem release_effect_witness :
    ((1 : Int) ≤ 1 ∧ (1 : Int) ≤ INT_MAX) ∧
    (release { current_color := .BLACK, active_threads := 1, next_thread_id := 5 }
        false 5).active_threads = 1 - 1 ∧
    ((1 : Int) = 1 →
      (release { current_color := .BLACK, active_threads := 1, next_thread_id := 5 }
        false 5).current_color = .NONE) ∧
    ((1 : Int) < 1 →
      (release { current_color := .BLACK, active_threads := 1, next_thread_id := 5 }
        false 5).current_color = .BLACK) :=
  ⟨by decide,
   release_effect { current_color := .BLACK, active_threads := 1, next_thread_id := 5 }
    false 5 (by decide) (by decide)⟩

/-- One uninterrupted cycle of identity `i` on an idle lock whose cursor is
`i`: both waits are passed at once and the lock is idle again, the cursor one
further on the ring. -/
theorem cycle_idle (is_white : Bool) (i : Nat) (h : i < 10) :
    cycle { current_color := .NONE, active_threads := 0, next_thread_id := (i : Int) }
        is_white (i : Int) =
      some { current_color := .NONE, active_threads := 0,
             next_thread_id := ((i + 1) % 10 : Nat) } := by
  have ht := next_cursor_nat i h
  have hw1 : wrap32 1 = 1 := by decide
  have hw0 : wrap32 0 = 0 := by decide
  simp [cycle, acquire, turn_ready, color_ready, activate, release, ht, hw0, hw1]

/-- C5: on the fresh lock (idle, `next_thread_id == 0`) the calls
`acquire(colors i, i); release(colors i, i)` for `i = 0, ..., 9` in this order,
with any colours, never suspend (each `acquire` finds both wait conditions
satisfied) and end in the starting state. -/
theorem full_cycle_round_trip (colors : Nat → Bool) :
    cycles colors ResourceManager.init 0 10 = some ResourceManager.init := by
  have c0 := cycle_idle (colors 0) 0 (by decide)
  have c1 := cycle_idle (colors 1) 1 (by decide)
  have c2 := cycle_idle (colors 2) 2 (by decide)
  have c3 := cycle_idle (colors 3) 3 (by decide)
  have c4 := cycle_idle (colors 4) 4 (by decide)
  have c5 := cycle_idle (colors 5) 5 (by decide)
  have c6 := cycle_idle (colors 6) 6 (by decide)
  have c7 := cycle_idle (colors 7) 7 (by decide)
  have c8 := cycle_idle (colors 8) 8 (by decide)
  have c9 := cycle_idle (colors 9) 9 (by decide)
  simp only [Nat.cast_ofNat, Nat.cast_zero, Nat.cast_one, Nat.reduceAdd, Nat.reduceMod] at *
  simp only [cycles, ResourceManager.init, Nat.cast_ofNat, Nat.cast_zero, Nat.cast_one,
    Nat.reduceAdd, c0, c1, c2, c3, c4, c5, c6, c7, c8, c9, Option.some_bind]

/-! ## Invariants of the interleaving semantics -/

theorem step_enter_eq (s t : Sys) (p : Participant) (h : step s (.enter p) = some t) :
    p ∈ s.pending ∧ turn_ready s.rm p.id = true ∧
    ((color_ready s.rm p.is_white = true ∧
        t = { s with rm := activate s.rm p.is_white
                     pending := s.pending.erase p
                     holders := p :: s.holders
                     log := s.log ++ [p] }) ∨
     (color_ready s.rm p.is_white = false ∧
        t = { s with pending := s.pending.erase p, parked := p :: s.parked })) := by
  simp only [step] at h
  by_cases hc : p ∈ s.pending ∧ turn_ready s.rm p.id = true
  · rw [if_pos hc] at h
    refine ⟨hc.1, hc.2, ?_⟩
    by_cases hr : color_ready s.rm p.is_white = true
    · rw [if_pos hr] at h
      exact Or.inl ⟨hr, (Option.some.inj h).symm⟩
    · rw [if_neg hr] at h
      exact Or.inr ⟨by simpa using hr, (Option.some.inj h).symm⟩
  · rw [if_neg hc] at h
    exact absurd h (by simp)

theorem step_wake_eq (s t : Sys) (p : Participant) (h : step s (.wake p) = some t) :
    p ∈ s.parked ∧ color_ready s.rm p.is_white = true ∧
      t = { s with rm := activate s.rm p.is_white
                   parked := s.parked.erase p
                   holders := p :: s.holders
                   log := s.log ++ [p] } := by
  simp only [step] at h
  by_cases hc : p ∈ s.parked ∧ color_ready s.rm p.is_white = true
  · rw [if_pos hc] at h
    exact ⟨hc.1, hc.2, (Option.some.inj h).symm⟩
  · rw [if_neg hc] at h
    exact absurd h (by simp)

theorem step_release_eq (s t : Sys) (p : Participant) (h : step s (.release p) = some t) :
    p ∈ s.holders ∧
      t = { s with rm := release s.rm p.is_white p.id
                   holders := s.holders.erase p } := by
  simp only [step] at h
  by_cases hc : p ∈ s.holders
  · rw [if_pos hc] at h
    exact ⟨hc, (Option.some.inj h).symm⟩
  · rw [if_neg hc] at h
    exact absurd h (by simp)

/-- C8, as stated, fails where the counter is at its largest value: the lock
is idle with `active_threads = 2147483647`, `acquire(true, 0)` passes both waits
and returns with `active_threads = -2147483648`, which is not one more. -/
theorem acquire_increment_wraps :
    acquire { current_color := .NONE, active_threads := 2147483647, next_thread_id := 0 }
        true 0 =
      some { current_color := .WHITE, active_threads := -2147483648, next_thread_id := 0 } ∧
    ¬ ((-2147483648 : Int) = 2147483647 + 1) := by
  decide

/-- Effect of lines 36-40 in a state where the second wait lets the caller
through: the colour is the one of the caller, the cursor is unchanged, and the
count is one more as long as it was an `int` below `INT_MAX`. -/
theorem activate_effect (rm : ResourceManager) (is_white : Bool)
    (hc : color_ready rm is_white = true) :
    (rm.current_color = .NONE ∨ rm.current_color = requested is_white) ∧
    (activate rm is_white).current_color = requested is_white ∧
    (INT_MIN ≤ rm.active_threads → rm.active_threads < INT_MAX →
      (activate rm is_white).active_threads = rm.active_threads + 1) ∧
    (activate rm is_white).next_thread_id = rm.next_thread_id := by
  refine ⟨(color_ready_iff rm is_white).1 hc, activate_color rm is_white hc, ?_, rfl⟩
  intro lo hi
  rw [activate_active]
  exact wrap32_succ_id _ lo hi

/-- C8 (amended): `acquire` passes its first wait only when
`next_thread_id == id` and its second wait only when `current_color` is `NONE`
or the colour of the caller; when it returns, `current_color` is the colour of
the caller, `next_thread_id` is unchanged, and `active_threads` is one more
than before the grant provided it was below `INT_MAX`.  This holds for a call
that is not suspended, for a thread that gets past the first wait under
interleaving (granted at once, or suspended in the second wait with the lock
unchanged), and for a grant made when a thread suspended in the second wait
wakes up. -/
theorem acquire_effect (rm : ResourceManager) (is_white : Bool) (thread_id : Int) :
    (∀ rm', acquire rm is_white thread_id = some rm' →
      rm.next_thread_id = thread_id ∧
      (rm.current_color = .NONE ∨ rm.current_color = requested is_white) ∧
      rm'.current_color = requested is_white ∧
      (INT_MIN ≤ rm.active_threads → rm.active_threads < INT_MAX →
        rm'.active_threads = rm.active_threads + 1) ∧
      rm'.next_thread_id = rm.next_thread_id) ∧
    (∀ s t : Sys, s.rm = rm →
      step s (.enter { is_white := is_white, id := thread_id }) = some t →
      rm.next_thread_id = thread_id ∧
      ((color_ready rm is_white = false ∧ t.rm = rm ∧
          { is_white := is_white, id := thread_id } ∈ t.parked) ∨
       ((rm.current_color = .NONE ∨ rm.current_color = requested is_white) ∧
        t.rm.current_color = requested is_white ∧
        (INT_MIN ≤ rm.active_threads → rm.active_threads < INT_MAX →
          t.rm.active_threads = rm.active_threads + 1) ∧
        t.rm.next_thread_id = rm.next_thread_id ∧
        { is_white := is_white, id := thread_id } ∈ t.holders))) ∧
    (∀ s t : Sys, s.rm = rm →
      step s (.wake { is_white := is_white, id := thread_id }) = some t →
      (rm.current_color = .NONE ∨ rm.current_color = requested is_white) ∧
      t.rm.current_color = requested is_white ∧
      (INT_MIN ≤ rm.active_threads → rm.active_threads < INT_MAX →
        t.rm.active_threads = rm.active_threads + 1) ∧
      t.rm.next_thread_id = rm.next_thread_id ∧
      { is_white := is_white, id := thread_id } ∈ t.holders) := by
  refine ⟨?_, ?_, ?_⟩
  · intro rm' h
    obtain ⟨h1, h2, rfl⟩ := (acquire_eq_some rm rm' is_white thread_id).1 h
    obtain ⟨e1, e2, e3, e4⟩ := activate_effect rm is_white h2
    exact ⟨(turn_ready_iff rm thread_id).1 h1, e1, e2, e3, e4⟩
  · intro s t hs h
    subst hs
    obtain ⟨-, ht, ⟨hc, rfl⟩ | ⟨hc, rfl⟩⟩ := step_enter_eq s t _ h
    · obtain ⟨e1, e2, e3, e4⟩ := activate_effect s.rm is_white hc
      exact ⟨(turn_ready_iff _ _).1 ht, Or.inr ⟨e1, e2, e3, e4, List.mem_cons_self _ _⟩⟩
    · exact ⟨(turn_ready_iff _ _).1 ht, Or.inl ⟨hc, rfl, List.mem_cons_self _ _⟩⟩
  · intro s t hs h
    subst hs
    obtain ⟨-, hc, rfl⟩ := step_wake_eq s t _ h
    obtain ⟨e1, e2, e3, e4⟩ := activate_effect s.rm is_white hc
    exact ⟨e1, e2, e3, e4, List.mem_cons_self _ _⟩

theorem acquire_effect_witness :
    (acquire { current_color := .WHITE, active_threads := 3, next_thread_id := 2 } true 2 =
        some { current_color := .WHITE, active_threads := 4, next_thread_id := 2 } ∧
      ((2 : Int) = 2 ∧
        (Color.WHITE = Color.NONE ∨ Color.WHITE = requested true) ∧
        Color.WHITE = requested true ∧
        (INT_MIN ≤ 3 → (3 : Int) < INT_MAX → (4 : Int) = 3 + 1) ∧ (2 : Int) = 2)) ∧
    (step { rm := { current_color := .NONE, active_threads := 2147483647, next_thread_id := 1 }
            pending := [], parked := [{ is_white := false, id := 2 }], holders := []
            log := [] }
        (.wake { is_white := false, id := 2 }) =
        some { rm := { current_color := .BLACK, active_threads := -2147483648,
                       next_thread_id := 1 }
               pending := [], parked := [], holders := [{ is_white := false, id := 2 }]
               log := [{ is_white := false, id := 2 }] } ∧
      ((Color.NONE = Color.NONE ∨ Color.NONE = requested false) ∧
        Color.BLACK = requested false ∧
        (INT_MIN ≤ 2147483647 → (2147483647 : Int) < INT_MAX →
          (-2147483648 : Int) = 2147483647 + 1) ∧
        (1 : Int) = 1 ∧
        ({ is_white := false, id := 2 } : Participant) ∈
          [({ is_white := false, id := 2 } : Participant)])) :=
  ⟨⟨by decide,
    (acquire_effect { current_color := .WHITE, active_threads := 3, next_thread_id := 2 }
      true 2).1 { current_color := .WHITE, active_threads := 4, next_thread_id := 2 }
      (by decide)⟩,
   ⟨by decide,
    (acquire_effect { current_color := .NONE, active_threads := 2147483647, next_thread_id := 1 }
      false 2).2.2
      { rm := { current_color := .NONE, active_threads := 2147483647, next_thread_id := 1 }
        pending := [], parked := [{ is_white := false, id := 2 }], holders := []
        log := [] }
      { rm := { current_color := .BLACK, active_threads := -2147483648, next_thread_id := 1 }
        pending := [], parked := [], holders := [{ is_white := false, id := 2 }]
        log := [{ is_white := false, id := 2 }] }
      rfl (by decide)⟩⟩

theorem wrap32_eq_zero_iff (n : Nat) (h : n ≤ 4294967295) :
    wrap32 (n : Int) = 0 ↔ n = 0 := by
  unfold wrap32
  omega

theorem wrap32_succ (n : Nat) : wrap32 (wrap32 (n : Int) + 1) = wrap32 ((n + 1 : Nat) : Int) := by
  unfold wrap32
  omega

theorem wrap32_pred (n : Nat) (h : 0 < n) :
    wrap32 (wrap32 (n : Int) - 1) = wrap32 ((n - 1 : Nat) : Int) := by
  unfold wrap32
  omega

/-- A grant keeps the lock consistent with the holders. -/
theorem coherent_grant {s : Sys} (h : Coherent s) (p : Participant)
    (hr : color_ready s.rm p.is_white = true) (pending parked log : List Participant) :
    Coherent { rm := activate s.rm p.is_white, pending := pending, parked := parked,
               holders := p :: s.holders, log := log } := by
  obtain ⟨h1, h2, h3⟩ := h
  refine ⟨?_, by simp, ?_⟩
  · show (activate s.rm p.is_white).active_threads = _
    rw [activate_active, h1, List.length_cons, wrap32_succ]
  · intro q hq
    show requested q.is_white = (activate s.rm p.is_white).current_color
    rw [activate_color _ _ hr]
    rcases List.mem_cons.1 hq with rfl | hq
    · rfl
    · have hq3 := h3 q hq
      rcases (color_ready_iff _ _).1 hr with hn | hn
      · rw [hn] at hq3
        exact absurd hq3 (requested_ne_NONE _)
      · rw [hq3, hn]

/-- A release by a holder keeps the lock consistent with the holders as long
as fewer than `2 ^ 32` of them remain. -/
theorem coherent_release {s : Sys} (h : Coherent s) (p : Participant) (hp : p ∈ s.holders)
    (hb : (s.holders.erase p).length ≤ 4294967295) (pending parked log : List Participant) :
    Coherent { rm := release s.rm p.is_white p.id, pending := pending, parked := parked,
               holders := s.holders.erase p, log := log } := by
  obtain ⟨h1, h2, h3⟩ := h
  have hlen : (s.holders.erase p).length = s.holders.length - 1 :=
    List.length_erase_of_mem hp
  have hpos : 0 < s.holders.length := List.length_pos_of_mem hp
  have hact : (release s.rm p.is_white p.id).active_threads =
      wrap32 (((s.holders.erase p).length : Nat) : Int) := by
    rw [release_active, h1, wrap32_pred _ hpos, hlen]
  refine ⟨hact, ?_, ?_⟩
  · intro he
    show (release s.rm p.is_white p.id).current_color = Color.NONE
    have hz : wrap32 (s.rm.active_threads - 1) = 0 := by
      have := hact
      rw [release_active] at this
      rw [this]
      simp only at he
      rw [he]
      rfl
    rw [release_color, if_pos hz]
  · intro q hq
    show requested q.is_white = (release s.rm p.is_white p.id).current_color
    have hq' : q ∈ s.holders := List.mem_of_mem_erase hq
    have hne : wrap32 (s.rm.active_threads - 1) ≠ 0 := by
      have := hact
      rw [release_active] at this
      rw [this]
      intro hz
      have hz0 := (wrap32_eq_zero_iff _ hb).1 hz
      have hq0 : q ∈ s.holders.erase p := hq
      have := List.length_pos_of_mem hq0
      omega
    rw [release_color, if_neg hne]
    exact h3 q hq'

theorem coherent_step {s t : Sys} (a : Action) (h : Coherent s) (hs : step s a = some t)
    (hb : t.holders.length ≤ 4294967295) : Coherent t := by
  cases a with
  | enter p =>
    obtain ⟨-, -, ⟨hr, rfl⟩ | ⟨-, rfl⟩⟩ := step_enter_eq s t p hs
    · exact coherent_grant h p hr _ _ _
    · exact h
  | wake p =>
    obtain ⟨-, hr, rfl⟩ := step_wake_eq s t p hs
    exact coherent_grant h p hr _ _ _
  | release p =>
    obtain ⟨hp, rfl⟩ := step_release_eq s t p hs
    exact coherent_release h p hp hb _ _ _

theorem coherent_start (ps : List Participant) : Coherent (Sys.start ps) := by
  refine ⟨?_, fun _ => rfl, ?_⟩
  · show (0 : Int) = wrap32 ((0 : Nat) : Int)
    unfold wrap32
    omega
  · intro p hp
    simp [Sys.start] at hp

theorem ReachWithin.coherent {bound : Nat} (hbound : bound ≤ 4294967295)
    {ps : List Participant} {s : Sys} (h : ReachWithin bound (Sys.start ps) s) :
    Coherent s := by
  induction h with
  | start => exact coherent_start ps
  | next a _ hs hb ih => exact coherent_step a ih hs (le_trans hb hbound)

theorem ReachWithin.holders_le {bound : Nat} {ps : List Participant} {s : Sys}
    (h : ReachWithin bound (Sys.start ps) s) : s.holders.length ≤ bound := by
  cases h with
  | start => simp [Sys.start]
  | next a _ hs hb => exact hb

theorem ReachWithin.reach {bound : Nat} {s0 s : Sys} (h : ReachWithin bound s0 s) :
    Reach s0 s := by
  induction h with
  | start => exact Reach.start
  | next a _ hs _ ih => exact Reach.next a ih hs

theorem pileUp_zero (total : Nat) :
    pileUp total 0 = Sys.start (List.replicate total { is_white := true, id := 0 }) := by
  simp [pileUp, Sys.start, ResourceManager.init, wrap32]

theorem pileUp_step (total k : Nat) (h : k < total) :
    step (pileUp total k) (.enter { is_white := true, id := 0 }) =
      some (pileUp total (k + 1)) := by
  obtain ⟨m, hm⟩ : ∃ m, total - k = m + 1 := ⟨total - k - 1, by omega⟩
  have hm2 : total - (k + 1) = m := by omega
  have hw := wrap32_succ k
  have hmem : ({ is_white := true, id := 0 } : Participant) ∈
      List.replicate (m + 1) ({ is_white := true, id := 0 } : Participant) := by
    simp [List.replicate_succ]
  by_cases hk : k = 0
  · subst hk
    simp only [pileUp, step, hm, hm2, hmem, turn_ready, color_ready, activate, requested,
      List.replicate_succ, List.erase_cons_head, List.replicate_zero, List.nil_append]
    simp [wrap32]
  · simp only [pileUp, step, hm, hm2, hmem, turn_ready, color_ready, activate, requested, hk,
      List.erase_cons_head]
    simp [← List.replicate_succ', List.replicate_succ, hw]

/-- Any number of calls `acquire(true, 0)` is granted one after the other on
the fresh lock when nobody releases. -/
theorem pileUp_reach (total k : Nat) (h : k ≤ total) :
    Reach (Sys.start (List.replicate total { is_white := true, id := 0 })) (pileUp total k) := by
  induction k with
  | zero => rw [pileUp_zero]; exact Reach.start
  | succ k ih => exact Reach.next _ (ih (by omega)) (pileUp_step total k (by omega))

/-! ## Invariants of the lock under any population of callers -/

/-- C1, as stated, fails once the 32-bit counter has wrapped: after
`4294967296` granted calls of `acquire(true, 0)` with no release in between,
`active_threads` is `0` again while `current_color` is `WHITE`. -/
theorem idle_iff_fails_after_wrap :
    ∃ s, Reach (Sys.start (List.replicate 4294967296 { is_white := true, id := 0 })) s ∧
      ¬ (s.rm.active_threads = 0 ↔ s.rm.current_color = .NONE) := by
  refine ⟨pileUp 4294967296 4294967296, pileUp_reach _ _ (le_refl _), ?_⟩
  have h1 : (pileUp 4294967296 4294967296).rm.active_threads = 0 := by
    show wrap32 ((4294967296 : Nat) : Int) = 0
    unfold wrap32
    omega
  have h2 : (pileUp 4294967296 4294967296).rm.current_color = .WHITE := by
    show (if (4294967296 : Nat) = 0 then Color.NONE else Color.WHITE) = Color.WHITE
    simp
  rw [h1, h2]
  simp

/-- C1 (amended): in every state reachable from the initial state by granted
acquires and by releases of current holders, along which fewer than `2 ^ 32`
grants are outstanding at any time, `active_threads == 0` holds if and only if
`current_color == NONE`. -/
theorem idle_iff_no_color (ps : List Participant) (s : Sys)
    (h : ReachWithin 4294967295 (Sys.start ps) s) :
    s.rm.active_threads = 0 ↔ s.rm.current_color = .NONE := by
  obtain ⟨h1, h2, h3⟩ := h.coherent (le_refl _)
  have hb := h.holders_le
  rw [h1, wrap32_eq_zero_iff _ hb]
  constructor
  · intro h0
    exact h2 (List.length_eq_zero.1 h0)
  · intro hc
    cases hh : s.holders with
    | nil => rfl
    | cons p rest =>
      have := h3 p (by rw [hh]; exact List.mem_cons_self _ _)
      rw [hc] at this
      exact absurd this (requested_ne_NONE _)

theorem idle_iff_no_color_witness :
    ReachWithin 4294967295 (Sys.start main_threads)
      { rm := { current_color := .WHITE, active_threads := 1, next_thread_id := 0 }
        pending := workersFrom parity 1 10, parked := []
        holders := [worker parity 0], log := [worker parity 0] } ∧
    ((1 : Int) = 0 ↔ Color.WHITE = Color.NONE) :=
  have h : ReachWithin 4294967295 (Sys.start main_threads)
      { rm := { current_color := .WHITE, active_threads := 1, next_thread_id := 0 }
        pending := workersFrom parity 1 10, parked := []
        holders := [worker parity 0], log := [worker parity 0] } :=
    ReachWithin.next (.enter (worker parity 0)) ReachWithin.start (by decide) (by decide)
  ⟨h, idle_iff_no_color main_threads _ h⟩

/-- C2, as stated, fails once the 32-bit counter has wrapped: after
`4294967297` granted calls of `acquire(true, 0)` with no release in between,
`active_threads` is `1`, which is positive and is not the number of holders. -/
theorem holder_count_fails_after_wrap :
    ∃ s, Reach (Sys.start (List.replicate 4294967297 { is_white := true, id := 0 })) s ∧
      0 < s.rm.active_threads ∧ s.rm.active_threads ≠ (s.holders.length : Int) := by
  refine ⟨pileUp 4294967297 4294967297, pileUp_reach _ _ (le_refl _), ?_⟩
  have h1 : (pileUp 4294967297 4294967297).rm.active_threads = 1 := by
    show wrap32 ((4294967297 : Nat) : Int) = 1
    unfold wrap32
    omega
  have h2 : (pileUp 4294967297 4294967297).holders.length = 4294967297 := by
    show (List.replicate 4294967297 _).length = 4294967297
    exact List.length_replicate _ _
  rw [h1, h2]
  constructor <;> omega

/-- C2 (amended): in every state reachable by granted acquires and by releases
performed by current holders, along which at most `2147483647` participants
hold the resource at any time, `active_threads` is the number of holders and,
if it is positive, every holder acquired with the colour `current_color`. -/
theorem holders_share_color (ps : List Participant) (s : Sys)
    (h : ReachWithin 2147483647 (Sys.start ps) s) :
    s.rm.active_threads = (s.holders.length : Int) ∧
    (0 < s.rm.active_threads →
      ∀ p ∈ s.holders, requested p.is_white = s.rm.current_color) := by
  obtain ⟨h1, -, h3⟩ := h.coherent (by decide)
  have hb := h.holders_le
  refine ⟨?_, fun _ => h3⟩
  rw [h1]
  have e1 := INT_MIN_eq
  have e2 := INT_MAX_eq
  apply wrap32_of_range <;> omega

theorem holders_share_color_witness :
    ReachWithin 2147483647 (Sys.start main_threads)
      { rm := { current_color := .WHITE, active_threads := 1, next_thread_id := 0 }
        pending := workersFrom parity 1 10, parked := []
        holders := [worker parity 0], log := [worker parity 0] } ∧
    ((1 : Int) = (([worker parity 0] : List Participant).length : Int) ∧
     ((0 : Int) < 1 → ∀ p ∈ [worker parity 0], requested p.is_white = Color.WHITE)) :=
  have h : ReachWithin 2147483647 (Sys.start main_threads)
      { rm := { current_color := .WHITE, active_threads := 1, next_thread_id := 0 }
        pending := workersFrom parity 1 10, parked := []
        holders := [worker parity 0], log := [worker parity 0] } :=
    ReachWithin.next (.enter (worker parity 0)) ReachWithin.start (by decide) (by decide)
  ⟨h, holders_share_color main_threads _ h⟩

/-! ## The runs of the harness -/

theorem spawn_eq (n : Nat) : spawn n = workersFrom parity 0 n := by
  simp only [spawn, workersFrom, List.range_eq_range', Nat.sub_zero]
  rfl

theorem main_threads_eq : main_threads = workersFrom parity 0 10 := spawn_eq 10

theorem workersFrom_cons (colors : Nat → Bool) (k n : Nat) (h : k < n) :
    workersFrom colors k n = worker colors k :: workersFrom colors (k + 1) n := by
  obtain ⟨m, hm⟩ : ∃ m, n - k = m + 1 := ⟨n - k - 1, by omega⟩
  have hm2 : n - (k + 1) = m := by omega
  simp [workersFrom, hm, hm2, List.range'_succ]

theorem workersFrom_self (colors : Nat → Bool) (n : Nat) : workersFrom colors n n = [] := by
  simp [workersFrom]

theorem workersFrom_snoc (colors : Nat → Bool) (k : Nat) :
    workersFrom colors 0 (k + 1) = workersFrom colors 0 k ++ [worker colors k] := by
  simp [workersFrom, ← List.range_eq_range', List.range_succ]

theorem mem_workersFrom (colors : Nat → Bool) (j n : Nat) (p : Participant)
    (h : p ∈ workersFrom colors j n) : ∃ i, j ≤ i ∧ i < n ∧ p = worker colors i := by
  simp only [workersFrom, List.mem_map, List.mem_range'_1] at h
  obtain ⟨i, ⟨h1, h2⟩, rfl⟩ := h
  exact ⟨i, h1, by omega, rfl⟩

theorem start_eq_idleAt (colors : Nat → Bool) (n : Nat) (extra : List Participant) :
    Sys.start (workersFrom colors 0 n ++ extra) = idleAt colors n extra 0 := by
  simp [Sys.start, idleAt, ResourceManager.init, workersFrom_self]

/-- On the idle lock whose cursor is `k`, thread `k` passes both waits. -/
theorem idleAt_enter (colors : Nat → Bool) (n : Nat) (extra : List Participant) (k : Nat)
    (hn : n ≤ 10) (hk : k < n) :
    step (idleAt colors n extra k) (.enter (worker colors k)) =
      some (heldAt colors n extra k) := by
  have hk10 : k % 10 = k := Nat.mod_eq_of_lt (by omega)
  simp [step, idleAt, heldAt, workersFrom_cons colors k n hk, workersFrom_snoc, turn_ready,
    color_ready, activate, worker, hk10, wrap32]

/-- The holder `k` releases: the lock is idle and the cursor is `(k + 1) mod 10`. -/
theorem heldAt_release (colors : Nat → Bool) (n : Nat) (extra : List Participant) (k : Nat)
    (hk : k < 10) :
    step (heldAt colors n extra k) (.release (worker colors k)) =
      some (idleAt colors n extra (k + 1)) := by
  have ht := next_cursor_nat k hk
  have hw0 : wrap32 0 = 0 := by decide
  simp [step, heldAt, idleAt, release, worker, ht, hw0]

/-- The only step enabled on the idle lock whose cursor is `k` is the entry
of thread `k`. -/
theorem idleAt_step (colors : Nat → Bool) (n : Nat) (extra : List Participant) (k : Nat)
    (hn : n ≤ 10) (hx : ∀ p ∈ extra, (n : Int) < p.id) (hk : k ≤ n) (a : Action) (t : Sys)
    (h : step (idleAt colors n extra k) a = some t) :
    k < n ∧ a = .enter (worker colors k) ∧ t = heldAt colors n extra k := by
  cases a with
  | enter p =>
    obtain ⟨hp, ht, -⟩ := step_enter_eq _ _ p h
    have hid : ((k % 10 : Nat) : Int) = p.id := (turn_ready_iff _ _).1 ht
    rcases List.mem_append.1 hp with hp | hp
    · obtain ⟨i, h1, h2, rfl⟩ := mem_workersFrom colors k n p hp
      have hik : i = k := by
        have : ((k % 10 : Nat) : Int) = (i : Int) := hid
        omega
      subst hik
      refine ⟨h2, rfl, ?_⟩
      rw [idleAt_enter colors n extra i hn h2] at h
      exact (Option.some.inj h).symm
    · have := hx p hp
      omega
  | wake p =>
    obtain ⟨hp, -⟩ := step_wake_eq _ _ p h
    simp [idleAt] at hp
  | release p =>
    obtain ⟨hp, -⟩ := step_release_eq _ _ p h
    simp [idleAt] at hp

/-- The only step enabled while thread `k` holds the resource is its release. -/
theorem heldAt_step (colors : Nat → Bool) (n : Nat) (extra : List Participant) (k : Nat)
    (hn : n ≤ 10) (hx : ∀ p ∈ extra, (n : Int) < p.id) (hk : k < n) (a : Action) (t : Sys)
    (h : step (heldAt colors n extra k) a = some t) :
    a = .release (worker colors k) ∧ t = idleAt colors n extra (k + 1) := by
  cases a with
  | enter p =>
    obtain ⟨hp, ht, -⟩ := step_enter_eq _ _ p h
    have hid : (k : Int) = p.id := (turn_ready_iff _ _).1 ht
    rcases List.mem_append.1 hp with hp | hp
    · obtain ⟨i, h1, h2, rfl⟩ := mem_workersFrom colors (k + 1) n p hp
      have : (k : Int) = (i : Int) := hid
      omega
    · have := hx p hp
      omega
  | wake p =>
    obtain ⟨hp, -⟩ := step_wake_eq _ _ p h
    simp [heldAt] at hp
  | release p =>
    obtain ⟨hp, -⟩ := step_release_eq _ _ p h
    have hp2 : p = worker colors k := by simpa [heldAt] using hp
    subst hp2
    refine ⟨rfl, ?_⟩
    rw [heldAt_release colors n extra k (by omega)] at h
    exact (Option.some.inj h).symm

/-- Shape of every reachable state of a run of threads `0, ..., n - 1`
(`n ≤ 10`) together with participants whose identities are larger than `n`. -/
theorem harness_states (colors : Nat → Bool) (n : Nat) (extra : List Participant)
    (hn : n ≤ 10) (hx : ∀ p ∈ extra, (n : Int) < p.id) (s : Sys)
    (h : Reach (Sys.start (workersFrom colors 0 n ++ extra)) s) :
    ∃ k, (k ≤ n ∧ s = idleAt colors n extra k) ∨ (k < n ∧ s = heldAt colors n extra k) := by
  induction h with
  | start => exact ⟨0, Or.inl ⟨Nat.zero_le _, start_eq_idleAt colors n extra⟩⟩
  | next a _ hs ih =>
    obtain ⟨k, ⟨hk, rfl⟩ | ⟨hk, rfl⟩⟩ := ih
    · obtain ⟨hk2, -, rfl⟩ := idleAt_step colors n extra k hn hx hk a _ hs
      exact ⟨k, Or.inr ⟨hk2, rfl⟩⟩
    · obtain ⟨-, rfl⟩ := heldAt_step colors n extra k hn hx hk a _ hs
      exact ⟨k + 1, Or.inl ⟨hk, rfl⟩⟩

/-- Every state of the shape `idleAt` or `heldAt` is reached. -/
theorem harness_reach (colors : Nat → Bool) (n : Nat) (extra : List Participant)
    (hn : n ≤ 10) (k : Nat) :
    (k ≤ n → Reach (Sys.start (workersFrom colors 0 n ++ extra)) (idleAt colors n extra k)) ∧
    (k < n → Reach (Sys.start (workersFrom colors 0 n ++ extra)) (heldAt colors n extra k)) := by
  induction k with
  | zero =>
    have h0 : Reach (Sys.start (workersFrom colors 0 n ++ extra)) (idleAt colors n extra 0) := by
      rw [start_eq_idleAt]
      exact Reach.start
    exact ⟨fun _ => h0, fun hk => Reach.next _ h0 (idleAt_enter colors n extra 0 hn hk)⟩
  | succ k ih =>
    have h1 : k + 1 ≤ n →
        Reach (Sys.start (workersFrom colors 0 n ++ extra)) (idleAt colors n extra (k + 1)) :=
      fun hk => Reach.next _ (ih.2 (by omega)) (heldAt_release colors n extra k (by omega))
    exact ⟨h1, fun hk => Reach.next _ (h1 (by omega)) (idleAt_enter colors n extra (k + 1) hn hk)⟩

theorem workersFrom_length (colors : Nat → Bool) (j n : Nat) :
    (workersFrom colors j n).length = n - j := by
  simp [workersFrom]

theorem workersFrom_getElem? (colors : Nat → Bool) (n k : Nat) (p : Participant)
    (h : (workersFrom colors 0 n)[k]? = some p) : p = worker colors k := by
  simp only [workersFrom, Nat.sub_zero, List.getElem?_map] at h
  by_cases hk : k < n
  · rw [List.getElem?_eq_getElem (by simpa using hk)] at h
    simp at h
    exact h.symm
  · rw [List.getElem?_eq_none (by simpa using hk)] at h
    simp at h

theorem reach_of_run (s0 : Sys) (as : List Action) :
    ∀ (s t : Sys), Reach s0 s → run s as = some t → Reach s0 t := by
  induction as with
  | nil =>
    intro s t hs h
    simp only [run] at h
    exact Option.some.inj h ▸ hs
  | cons a as ih =>
    intro s t hs h
    simp only [run] at h
    cases hstep : step s a with
    | none => rw [hstep] at h; exact absurd h (by simp)
    | some u =>
      rw [hstep] at h
      exact ih u t (Reach.next a hs hstep) h

theorem idleAt_finished (colors : Nat → Bool) (n k : Nat) (hk : k ≤ n)
    (h : (idleAt colors n [] k).finished = true) : k = n := by
  by_contra hne
  have hlt : k < n := by omega
  simp [Sys.finished, idleAt, workersFrom_cons colors k n hlt] at h

theorem heldAt_not_finished (colors : Nat → Bool) (n : Nat) (extra : List Participant)
    (k : Nat) : (heldAt colors n extra k).finished = false := by
  simp [Sys.finished, heldAt]

/-- Reachable states of the threads `0, ..., n - 1` on their own. -/
theorem crew_states (colors : Nat → Bool) (n : Nat) (hn : n ≤ 10) (s : Sys)
    (h : Reach (Sys.start (workersFrom colors 0 n)) s) :
    ∃ k, (k ≤ n ∧ s = idleAt colors n [] k) ∨ (k < n ∧ s = heldAt colors n [] k) := by
  apply harness_states colors n [] hn (by simp) s
  simpa using h

/-- Grants of a run of the threads `0, ..., n - 1`: the one at position `k` of
the history is the grant of identity `k`. -/
theorem crew_log (colors : Nat → Bool) (n : Nat) (hn : n ≤ 10) (s : Sys)
    (h : Reach (Sys.start (workersFrom colors 0 n)) s) (k : Nat) (p : Participant)
    (hp : s.log[k]? = some p) : p.id = (k : Int) := by
  obtain ⟨j, ⟨-, rfl⟩ | ⟨-, rfl⟩⟩ := crew_states colors n hn s h
  · rw [workersFrom_getElem? colors j k p hp]
    rfl
  · rw [workersFrom_getElem? colors (j + 1) k p hp]
    rfl

theorem crew_active (colors : Nat → Bool) (n : Nat) (hn : n ≤ 10) (s : Sys)
    (h : Reach (Sys.start (workersFrom colors 0 n)) s) :
    (s.rm.active_threads = 0 ∨ s.rm.active_threads = 1) ∧ s.holders.length ≤ 1 := by
  obtain ⟨j, ⟨-, rfl⟩ | ⟨-, rfl⟩⟩ := crew_states colors n hn s h
  · exact ⟨Or.inl rfl, by simp [idleAt]⟩
  · exact ⟨Or.inr rfl, by simp [heldAt]⟩

/-- End of a run of the threads `0, ..., n - 1`: all have been granted, the
lock is idle and the cursor is `n mod 10`. -/
theorem crew_final (colors : Nat → Bool) (n : Nat) (hn : n ≤ 10) (s : Sys)
    (h : Reach (Sys.start (workersFrom colors 0 n)) s) (hf : s.finished = true) :
    s.log.length = n ∧ s.rm.current_color = .NONE ∧ s.rm.active_threads = 0 ∧
      s.rm.next_thread_id = ((n % 10 : Nat) : Int) := by
  obtain ⟨j, ⟨hj, rfl⟩ | ⟨-, rfl⟩⟩ := crew_states colors n hn s h
  · have := idleAt_finished colors n j hj hf
    subst this
    exact ⟨by simp [idleAt, workersFrom_length], rfl, rfl, rfl⟩
  · rw [heldAt_not_finished] at hf
    exact absurd hf (by simp)

/-! ## The reference configuration -/

/-- C3: in every execution of the ten threads with the identities `0, ..., 9`
(any colours, one `acquire` and one `release` each, fresh lock), whatever the
interleaving, the `k`-th granted `acquire` is the one of identity `k`, and when
all threads are through all ten have been granted. -/
theorem grants_in_identity_order (colors : Nat → Bool) (s : Sys)
    (h : Reach (Sys.start (workersFrom colors 0 NUM_THREADS)) s) :
    (∀ (k : Nat) (p : Participant), s.log[k]? = some p → p.id = (k : Int)) ∧
    (s.finished = true → s.log.length = 10) :=
  ⟨crew_log colors 10 (le_refl _) s h,
   fun hf => (crew_final colors 10 (le_refl _) s h hf).1⟩

theorem grants_in_identity_order_witness :
    Reach (Sys.start (workersFrom parity 0 NUM_THREADS)) (idleAt parity 10 [] 10) ∧
    ((∀ (k : Nat) (p : Participant),
        (idleAt parity 10 [] 10).log[k]? = some p → p.id = (k : Int)) ∧
     ((idleAt parity 10 [] 10).finished = true → (idleAt parity 10 [] 10).log.length = 10)) :=
  have h : Reach (Sys.start (workersFrom parity 0 NUM_THREADS)) (idleAt parity 10 [] 10) :=
    reach_of_run _ (roundRobin parity 10) _ _ Reach.start (by decide)
  ⟨h, grants_in_identity_order parity _ h⟩

/-- C4: in every reachable state of the ten threads with the identities
`0, ..., 9` (any colours, so also equal colours on consecutive turns),
`active_threads` is 0 or 1 and at most one participant holds the resource. -/
theorem single_holder (colors : Nat → Bool) (s : Sys)
    (h : Reach (Sys.start (workersFrom colors 0 NUM_THREADS)) s) :
    (s.rm.active_threads = 0 ∨ s.rm.active_threads = 1) ∧ s.holders.length ≤ 1 :=
  crew_active colors 10 (le_refl _) s h

theorem single_holder_witness :
    Reach (Sys.start (workersFrom (fun _ => true) 0 NUM_THREADS))
      (heldAt (fun _ => true) 10 [] 1) ∧
    (((heldAt (fun _ => true) 10 [] 1).rm.active_threads = 0 ∨
      (heldAt (fun _ => true) 10 [] 1).rm.active_threads = 1) ∧
     (heldAt (fun _ => true) 10 [] 1).holders.length ≤ 1) :=
  have h : Reach (Sys.start (workersFrom (fun _ => true) 0 NUM_THREADS))
      (heldAt (fun _ => true) 10 [] 1) :=
    reach_of_run _
      [.enter (worker (fun _ => true) 0), .release (worker (fun _ => true) 0),
       .enter (worker (fun _ => true) 1)] _ _ Reach.start (by decide)
  ⟨h, single_holder (fun _ => true) _ h⟩

/-- C7, as stated, fails in its last part: the complete run of the four
threads `0, ..., 3` on the fresh lock ends idle with `next_thread_id == 4`,
because `release` advances the cursor modulo 10 whatever the number of
threads. -/
theorem scenario_four_ends_at_cursor_four :
    ∃ s, Reach (Sys.start (spawn 4)) s ∧ s.finished = true ∧
      s.rm.next_thread_id = 4 ∧ s.rm.next_thread_id ≠ 0 :=
  ⟨idleAt parity 4 [] 4,
   reach_of_run _ (roundRobin parity 4) _ _ Reach.start (by decide),
   by decide, by decide, by decide⟩

/-- C7 (amended): for the four threads `0, ..., 3` with colours by parity on
the fresh lock, the acquires are granted in the order 0, 1, 2, 3,
`active_threads` is 0 or 1 in every reachable state, and after all four have
released the lock is idle (`current_color` `NONE`, `active_threads` 0) with
`next_thread_id == 4`. -/
theorem scenario_four (s : Sys) (h : Reach (Sys.start (spawn 4)) s) :
    (∀ (k : Nat) (p : Participant), s.log[k]? = some p → p.id = (k : Int)) ∧
    (s.rm.active_threads = 0 ∨ s.rm.active_threads = 1) ∧
    (s.finished = true →
      s.log.length = 4 ∧ s.rm.current_color = .NONE ∧ s.rm.active_threads = 0 ∧
        s.rm.next_thread_id = 4) := by
  rw [spawn_eq] at h
  exact ⟨crew_log parity 4 (by decide) s h, (crew_active parity 4 (by decide) s h).1,
    fun hf => crew_final parity 4 (by decide) s h hf⟩

theorem scenario_four_witness :
    Reach (Sys.start (spawn 4)) (idleAt parity 4 [] 4) ∧
    ((∀ (k : Nat) (p : Participant),
        (idleAt parity 4 [] 4).log[k]? = some p → p.id = (k : Int)) ∧
     ((idleAt parity 4 [] 4).rm.active_threads = 0 ∨
      (idleAt parity 4 [] 4).rm.active_threads = 1) ∧
     ((idleAt parity 4 [] 4).finished = true →
      (idleAt parity 4 [] 4).log.length = 4 ∧
        (idleAt parity 4 [] 4).rm.current_color = .NONE ∧
        (idleAt parity 4 [] 4).rm.active_threads = 0 ∧
        (idleAt parity 4 [] 4).rm.next_thread_id = 4)) :=
  have h : Reach (Sys.start (spawn 4)) (idleAt parity 4 [] 4) :=
    reach_of_run _ (roundRobin parity 4) _ _ Reach.start (by decide)
  ⟨h, scenario_four _ h⟩

/-- C10: every reachable state of the ten threads with the identities
`0, ..., 9` in which some thread has not finished its cycle has an enabled
step: either some thread holds the resource and its `release` is enabled, or
the lock is idle and the thread whose identity is `next_thread_id` has not yet
acquired and passes both waits. -/
theorem harness_never_stuck (colors : Nat → Bool) (s : Sys)
    (h : Reach (Sys.start (workersFrom colors 0 NUM_THREADS)) s)
    (hu : s.finished = false) :
    (∃ p ∈ s.holders, ∃ t, step s (.release p) = some t) ∨
    (s.rm.idle = true ∧
      ∃ p ∈ s.pending, p.id = s.rm.next_thread_id ∧ turn_ready s.rm p.id = true ∧
        color_ready s.rm p.is_white = true ∧ ∃ t, step s (.enter p) = some t) := by
  obtain ⟨k, ⟨hk, rfl⟩ | ⟨hk, rfl⟩⟩ := crew_states colors 10 (le_refl _) s h
  · right
    have hlt : k < 10 := by
      by_contra hge
      have hk10 : k = 10 := by omega
      subst hk10
      simp [Sys.finished, idleAt, workersFrom_self] at hu
    have hk10 : k % 10 = k := Nat.mod_eq_of_lt hlt
    refine ⟨rfl, worker colors k, ?_, ?_, ?_, ?_, _, idleAt_enter colors 10 [] k (le_refl _) hlt⟩
    · simp [idleAt, workersFrom_cons colors k 10 hlt]
    · simp [idleAt, worker, hk10]
    · simp [idleAt, worker, turn_ready, hk10]
    · simp [idleAt, color_ready]
  · left
    exact ⟨worker colors k, by simp [heldAt], _, heldAt_release colors 10 [] k hk⟩

theorem harness_never_stuck_witness :
    Reach (Sys.start (workersFrom parity 0 NUM_THREADS)) (idleAt parity 10 [] 9) ∧
    ((∃ p ∈ (idleAt parity 10 [] 9).holders,
        ∃ t, step (idleAt parity 10 [] 9) (.release p) = some t) ∨
     ((idleAt parity 10 [] 9).rm.idle = true ∧
      ∃ p ∈ (idleAt parity 10 [] 9).pending,
        p.id = (idleAt parity 10 [] 9).rm.next_thread_id ∧
        turn_ready (idleAt parity 10 [] 9).rm p.id = true ∧
        color_ready (idleAt parity 10 [] 9).rm p.is_white = true ∧
        ∃ t, step (idleAt parity 10 [] 9) (.enter p) = some t)) :=
  have h : Reach (Sys.start (workersFrom parity 0 NUM_THREADS)) (idleAt parity 10 [] 9) :=
    reach_of_run _ (roundRobin parity 9) _ _ Reach.start (by decide)
  ⟨h, harness_never_stuck parity _ h (by decide)⟩

/-! ## Misuse of the lock -/

theorem withoutIdentity_eq (colors : Nat → Bool) (k : Nat) (hk : k < 10) :
    withoutIdentity colors k = workersFrom colors 0 k ++ workersFrom colors (k + 1) 10 := by
  have h : (List.range NUM_THREADS).filter (fun i => i != k) =
      List.range' 0 (k - 0) ++ List.range' (k + 1) (10 - (k + 1)) := by
    interval_cases k <;> decide
  simp only [withoutIdentity, workersFrom, h, List.map_append]

theorem workersFrom_id_gt (colors : Nat → Bool) (k n : Nat) (p : Participant)
    (hp : p ∈ workersFrom colors (k + 1) n) : (k : Int) < p.id := by
  obtain ⟨i, h1, -, rfl⟩ := mem_workersFrom colors (k + 1) n p hp
  show (k : Int) < (i : Int)
  omega

/-- Reachable states when the thread of identity `k` is missing. -/
theorem skipped_states (colors : Nat → Bool) (k : Nat) (hk : k < 10) (s : Sys)
    (h : Reach (Sys.start (withoutIdentity colors k)) s) :
    ∃ j, (j ≤ k ∧ s = idleAt colors k (workersFrom colors (k + 1) 10) j) ∨
         (j < k ∧ s = heldAt colors k (workersFrom colors (k + 1) 10) j) := by
  rw [withoutIdentity_eq colors k hk] at h
  exact harness_states colors k _ (by omega) (workersFrom_id_gt colors k 10) s h

/-- C11: when the threads are the identities `0, ..., 9` except `k`, each with
one `acquire` and one `release` on the fresh lock, then in every reachable
state `next_thread_id` is at most `k`, every grant so far went to an identity
below `k` (none to an identity greater than `k`), once the identities below
`k` have all released no step is enabled, and for `k = 0` nothing is ever
granted. -/
theorem skipped_identity_blocks (colors : Nat → Bool) (k : Nat) (hk : k < 10) (s : Sys)
    (h : Reach (Sys.start (withoutIdentity colors k)) s) :
    s.rm.next_thread_id ≤ (k : Int) ∧
    (∀ p ∈ s.log, p.id < (k : Int)) ∧
    ((∀ p ∈ s.pending ++ s.parked ++ s.holders, (k : Int) < p.id) →
      ∀ a, step s a = none) ∧
    (k = 0 → s.log = []) := by
  have hx := workersFrom_id_gt colors k 10
  obtain ⟨j, ⟨hj, rfl⟩ | ⟨hj, rfl⟩⟩ := skipped_states colors k hk s h
  · refine ⟨?_, ?_, ?_, ?_⟩
    · show ((j % 10 : Nat) : Int) ≤ (k : Int)
      omega
    · intro p hp
      obtain ⟨i, -, h2, rfl⟩ := mem_workersFrom colors 0 j p hp
      show (i : Int) < (k : Int)
      omega
    · intro hall a
      have hjk : j = k := by
        by_contra hne
        have hlt : j < k := by omega
        have hmem : worker colors j ∈
            (idleAt colors k (workersFrom colors (k + 1) 10) j).pending ++
              (idleAt colors k (workersFrom colors (k + 1) 10) j).parked ++
              (idleAt colors k (workersFrom colors (k + 1) 10) j).holders := by
          simp [idleAt, workersFrom_cons colors j k hlt]
        have hgt : (k : Int) < (j : Int) := hall _ hmem
        omega
      subst hjk
      cases hs : step (idleAt colors j (workersFrom colors (j + 1) 10) j) a with
      | none => rfl
      | some t =>
        have := (idleAt_step colors j _ j (by omega) hx (le_refl _) a t hs).1
        omega
    · intro h0
      have hj0 : j = 0 := by omega
      subst hj0
      exact workersFrom_self colors 0
  · refine ⟨?_, ?_, ?_, ?_⟩
    · show (j : Int) ≤ (k : Int)
      omega
    · intro p hp
      obtain ⟨i, -, h2, rfl⟩ := mem_workersFrom colors 0 (j + 1) p hp
      show (i : Int) < (k : Int)
      omega
    · intro hall a
      have hmem : worker colors j ∈
          (heldAt colors k (workersFrom colors (k + 1) 10) j).pending ++
            (heldAt colors k (workersFrom colors (k + 1) 10) j).parked ++
            (heldAt colors k (workersFrom colors (k + 1) 10) j).holders := by
        simp [heldAt]
      have hgt : (k : Int) < (j : Int) := hall _ hmem
      omega
    · intro h0
      omega

theorem skipped_identity_blocks_witness :
    (3 < 10 ∧
      Reach (Sys.start (withoutIdentity parity 3))
        (idleAt parity 3 (workersFrom parity 4 10) 3)) ∧
    ((idleAt parity 3 (workersFrom parity 4 10) 3).rm.next_thread_id ≤ ((3 : Nat) : Int) ∧
     (∀ p ∈ (idleAt parity 3 (workersFrom parity 4 10) 3).log, p.id < ((3 : Nat) : Int)) ∧
     ((∀ p ∈ (idleAt parity 3 (workersFrom parity 4 10) 3).pending ++
            (idleAt parity 3 (workersFrom parity 4 10) 3).parked ++
            (idleAt parity 3 (workersFrom parity 4 10) 3).holders,
          ((3 : Nat) : Int) < p.id) →
        ∀ a, step (idleAt parity 3 (workersFrom parity 4 10) 3) a = none) ∧
     (3 = 0 → (idleAt parity 3 (workersFrom parity 4 10) 3).log = [])) :=
  have h : Reach (Sys.start (withoutIdentity parity 3))
      (idleAt parity 3 (workersFrom parity 4 10) 3) :=
    reach_of_run _ (roundRobin parity 3) _ _ Reach.start (by decide)
  ⟨⟨by decide, h⟩, skipped_identity_blocks parity 3 (by decide) _ h⟩

/-- C12: `release(color, id)` on an idle lock (`active_threads` 0,
`current_color` `NONE`, any cursor), for every `int` identity below `INT_MAX`
(where `id + 1` does not overflow), returns and leaves `active_threads == -1`
with `current_color` still `NONE` and `next_thread_id == (id + 1) % 10` (the
remainder of C++, which is `(id + 1) mod 10` for every identity `id ≥ 0`):
nothing checks for the underflow. -/
theorem unmatched_release (cursor : Int) (is_white : Bool) (id : Int)
    (lo : INT_MIN ≤ id) (hi : id < INT_MAX) :
    release { current_color := .NONE, active_threads := 0, next_thread_id := cursor }
        is_white id =
      { current_color := .NONE, active_threads := -1,
        next_thread_id := Int.tmod (id + 1) 10 } ∧
    (0 ≤ id → Int.tmod (id + 1) 10 = (id + 1) % 10) := by
  refine ⟨?_, tmod_succ_ten id⟩
  have hw : wrap32 (0 - 1) = -1 := by decide
  simp only [release, wrap32_succ_id id lo hi, hw]
  rfl

theorem unmatched_release_witness :
    (INT_MIN ≤ 9 ∧ (9 : Int) < INT_MAX) ∧
    release { current_color := .NONE, active_threads := 0, next_thread_id := 0 } true 9 =
      { current_color := .NONE, active_threads := -1, next_thread_id := 0 } ∧
    Int.tmod ((9 : Int) + 1) 10 = (9 + 1) % 10 :=
  ⟨by decide, (unmatched_release 0 true 9 (by decide) (by decide)).1,
   (unmatched_release 0 true 9 (by decide) (by decide)).2 (by decide)⟩

/-- C13: in every reachable state of the ten threads with the identities
`0, ..., 9`, a thread that has not been granted and whose identity is
`next_thread_id` finds the lock idle; no thread is ever suspended in the second
wait, every entry is granted at once from `current_color == NONE`, and no grant
happens on a wake-up. -/
theorem color_wait_never_blocks (colors : Nat → Bool) (s : Sys)
    (h : Reach (Sys.start (workersFrom colors 0 NUM_THREADS)) s) :
    (∀ p ∈ s.pending ++ s.parked, p.id = s.rm.next_thread_id →
      s.rm.current_color = .NONE ∧ s.rm.active_threads = 0) ∧
    s.parked = [] ∧
    (∀ p t, step s (.enter p) = some t →
      s.rm.current_color = .NONE ∧ color_ready s.rm p.is_white = true ∧
        t.parked = [] ∧ p ∈ t.holders) ∧
    (∀ p, step s (.wake p) = none) := by
  obtain ⟨k, ⟨hk, rfl⟩ | ⟨hk, rfl⟩⟩ := crew_states colors 10 (le_refl _) s h
  · refine ⟨fun _ _ _ => ⟨rfl, rfl⟩, rfl, ?_, ?_⟩
    · intro p t hs
      obtain ⟨-, ha, rfl⟩ := idleAt_step colors 10 [] k (le_refl _) (by simp) hk _ t hs
      cases ha
      exact ⟨rfl, rfl, rfl, by simp [heldAt]⟩
    · intro p
      cases hs : step (idleAt colors 10 [] k) (.wake p) with
      | none => rfl
      | some t =>
        have ha := (idleAt_step colors 10 [] k (le_refl _) (by simp) hk _ t hs).2.1
        cases ha
  · refine ⟨?_, rfl, ?_, ?_⟩
    · intro p hp hid
      have hp2 : p ∈ workersFrom colors (k + 1) 10 := by simpa [heldAt] using hp
      have hgt := workersFrom_id_gt colors k 10 p hp2
      have hid2 : p.id = (k : Int) := hid
      omega
    · intro p t hs
      have ha := (heldAt_step colors 10 [] k (le_refl _) (by simp) hk _ t hs).1
      cases ha
    · intro p
      cases hs : step (heldAt colors 10 [] k) (.wake p) with
      | none => rfl
      | some t =>
        have ha := (heldAt_step colors 10 [] k (le_refl _) (by simp) hk _ t hs).1
        cases ha

theorem color_wait_never_blocks_witness :
    Reach (Sys.start (workersFrom parity 0 NUM_THREADS)) (idleAt parity 10 [] 4) ∧
    ((∀ p ∈ (idleAt parity 10 [] 4).pending ++ (idleAt parity 10 [] 4).parked,
        p.id = (idleAt parity 10 [] 4).rm.next_thread_id →
        (idleAt parity 10 [] 4).rm.current_color = .NONE ∧
          (idleAt parity 10 [] 4).rm.active_threads = 0) ∧
     (idleAt parity 10 [] 4).parked = [] ∧
     (∀ p t, step (idleAt parity 10 [] 4) (.enter p) = some t →
        (idleAt parity 10 [] 4).rm.current_color = .NONE ∧
          color_ready (idleAt parity 10 [] 4).rm p.is_white = true ∧
          t.parked = [] ∧ p ∈ t.holders) ∧
     (∀ p, step (idleAt parity 10 [] 4) (.wake p) = none)) :=
  have h : Reach (Sys.start (workersFrom parity 0 NUM_THREADS)) (idleAt parity 10 [] 4) :=
    reach_of_run _ (roundRobin parity 4) _ _ Reach.start (by decide)
  ⟨h, color_wait_never_blocks parity _ h⟩

/-! ## The two variants -/

/-- C15: the portable variant and the Windows variant have the same initial
state, pass each wait in the same states (a loop of the Windows variant sleeps
exactly when the predicate of the corresponding `cv.wait` is false), and for
every state and every `(is_white, thread_id)` their `acquire` is granted in the
same states with the same resulting state and their `release` yields the same
state. -/
theorem variants_agree (rm : ResourceManager) (is_white : Bool) (thread_id : Int) :
    Windows.init = ResourceManager.init ∧
    Windows.turn_sleeps rm thread_id = !turn_ready rm thread_id ∧
    Windows.color_sleeps rm is_white = !color_ready rm is_white ∧
    Windows.activate rm is_white = activate rm is_white ∧
    Windows.acquire rm is_white thread_id = acquire rm is_white thread_id ∧
    Windows.release rm is_white thread_id = release rm is_white thread_id := by
  have h1 : Windows.turn_sleeps rm thread_id = !turn_ready rm thread_id := by
    simp [Windows.turn_sleeps, turn_ready, bne]
  have h2 : Windows.color_sleeps rm is_white = !color_ready rm is_white := rfl
  refine ⟨rfl, h1, h2, rfl, ?_, rfl⟩
  unfold Windows.acquire acquire
  rw [h1, h2]
  cases turn_ready rm thread_id <;> cases color_ready rm is_white <;> rfl

/-- C16: `release` ignores its colour argument, in both variants: for every
state and every identity, `release(true, id)` and `release(false, id)` yield
the same state. -/
theorem release_ignores_color (rm : ResourceManager) (id : Int) :
    release rm true id = release rm false id ∧
    Windows.release rm true id = Windows.release rm false id :=
  ⟨rfl, rfl⟩

/-! ## The two waits against a single wait on the compound predicate -/

theorem compound_ready_iff (rm : ResourceManager) (is_white : Bool) (id : Int) :
    compound_ready rm is_white id = true ↔
      turn_ready rm id = true ∧ color_ready rm is_white = true := by
  simp [compound_ready, turn_ready, color_ready]

theorem staged_of_stages (P0 : Pool) (as : List Stage) :
    ∀ (P Q : Pool), Staged P0 P → stages P as = some Q → Staged P0 Q := by
  induction as with
  | nil =>
    intro P Q hP h
    simp only [stages] at h
    exact Option.some.inj h ▸ hP
  | cons a as ih =>
    intro P Q hP h
    simp only [stages] at h
    cases hstep : stage P a with
    | none => rw [hstep] at h; exact absurd h (by simp)
    | some R =>
      rw [hstep] at h
      exact ih R Q (Staged.next a hP hstep) h

theorem stage_pass_eq (P Q : Pool) (id : Int) (h : stage P (.pass id) = some Q) :
    (∃ rest, (P.threads id).todo = Call.acquire :: rest) ∧
    (P.threads id).between = false ∧ turn_ready P.rm id = true ∧
    Q = { P with threads := P.put id { P.threads id with between := true } } := by
  simp only [stage] at h
  split at h
  · rename_i rest htodo
    split at h
    · rename_i hc
      exact ⟨⟨rest, htodo⟩, hc.1, hc.2, (Option.some.inj h).symm⟩
    · exact absurd h (by simp)
  · exact absurd h (by simp)

theorem stage_commit_eq (P Q : Pool) (id : Int) (h : stage P (.commit id) = some Q) :
    ∃ rest, (P.threads id).todo = Call.acquire :: rest ∧
      (P.threads id).between = true ∧
      color_ready P.rm (P.threads id).is_white = true ∧
      Q = { rm := activate P.rm (P.threads id).is_white
            threads := P.put id { P.threads id with
              todo := rest, between := false, held := (P.threads id).held + 1 } } := by
  simp only [stage] at h
  split at h
  · rename_i rest htodo
    split at h
    · rename_i hc
      exact ⟨rest, htodo, hc.1, hc.2, (Option.some.inj h).symm⟩
    · exact absurd h (by simp)
  · exact absurd h (by simp)

theorem stage_release_eq (P Q : Pool) (id : Int) (h : stage P (.release id) = some Q) :
    ∃ rest, (P.threads id).todo = Call.release :: rest ∧
      0 < (P.threads id).held ∧
      Q = { rm := release P.rm (P.threads id).is_white id
            threads := P.put id { P.threads id with
              todo := rest, held := (P.threads id).held - 1 } } := by
  simp only [stage] at h
  split at h
  · rename_i rest htodo
    split at h
    · rename_i hc
      exact ⟨rest, htodo, hc, (Option.some.inj h).symm⟩
    · exact absurd h (by simp)
  · exact absurd h (by simp)

theorem put_same (P : Pool) (id : Int) (t : Thread) : P.put id t id = t := by
  simp [Pool.put]

theorem put_other (P : Pool) (id j : Int) (t : Thread) (h : j ≠ id) :
    P.put id t j = P.threads j := by
  simp [Pool.put, h]

theorem alternating_acquire (held : Nat) (rest : List Call)
    (h : alternating held (Call.acquire :: rest) = true) :
    held = 0 ∧ alternating 1 rest = true := by
  simpa [alternating] using h

theorem alternating_release (held : Nat) (rest : List Call)
    (h : alternating held (Call.release :: rest) = true) :
    held = 1 ∧ alternating 0 rest = true := by
  simpa [alternating] using h

theorem orderly_start (colors : Int → Bool) (programs : Int → List Call)
    (h : ∀ id, alternating 0 (programs id) = true) :
    Orderly (Pool.start colors programs) := by
  intro id
  refine ⟨Nat.zero_le _, h id, ?_, ?_⟩
  · intro hb
    exact absurd hb (by simp [Pool.start])
  · intro hb
    rcases hb with hb | hb
    · exact absurd hb (by simp [Pool.start])
    · exact absurd hb (by simp [Pool.start])

/-- Every step keeps the runs with alternating programs orderly. -/
theorem orderly_stage (P Q : Pool) (a : Stage) (hP : Orderly P) (h : stage P a = some Q) :
    Orderly Q := by
  cases a with
  | pass id =>
    obtain ⟨⟨rest, htodo⟩, hb, ht, rfl⟩ := stage_pass_eq P Q id h
    obtain ⟨h1, h2, -, -⟩ := hP id
    intro j
    by_cases hj : j = id
    · subst hj
      simp only [put_same]
      rw [htodo] at h2
      exact ⟨h1, by rw [htodo]; exact h2, fun _ => ⟨(alternating_acquire _ _ h2).1, rest, htodo⟩,
        fun _ => (turn_ready_iff _ _).1 ht⟩
    · simp only [put_other P id j _ hj]
      exact hP j
  | commit id =>
    obtain ⟨rest, htodo, hb, -, rfl⟩ := stage_commit_eq P Q id h
    obtain ⟨-, h2, h3, h4⟩ := hP id
    have h0 : (P.threads id).held = 0 := (h3 hb).1
    rw [htodo] at h2
    intro j
    by_cases hj : j = id
    · subst hj
      simp only [put_same]
      refine ⟨by omega, ?_, fun hf => absurd hf (by simp), fun _ => ?_⟩
      · rw [h0]
        exact (alternating_acquire _ _ h2).2
      · rw [activate_next]
        exact h4 (Or.inl hb)
    · simp only [put_other P id j _ hj]
      obtain ⟨g1, g2, g3, g4⟩ := hP j
      exact ⟨g1, g2, g3, fun hf => by rw [activate_next]; exact g4 hf⟩
  | release id =>
    obtain ⟨rest, htodo, hpos, rfl⟩ := stage_release_eq P Q id h
    obtain ⟨-, h2, h3, h4⟩ := hP id
    rw [htodo] at h2
    obtain ⟨hone, halt⟩ := alternating_release _ _ h2
    have hnb : (P.threads id).between = false := by
      cases hb : (P.threads id).between with
      | false => rfl
      | true =>
        have := (h3 hb).1
        omega
    have hcur : P.rm.next_thread_id = id := h4 (Or.inr hpos)
    intro j
    by_cases hj : j = id
    · subst hj
      simp only [put_same]
      refine ⟨by omega, ?_, fun hf => ?_, fun hf => ?_⟩
      · rw [hone]
        exact halt
      · rw [hnb] at hf
        exact absurd hf (by simp)
      · rcases hf with hf | hf
        · rw [hnb] at hf
          exact absurd hf (by simp)
        · omega
    · simp only [put_other P id j _ hj]
      obtain ⟨g1, g2, g3, g4⟩ := hP j
      refine ⟨g1, g2, g3, fun hf => ?_⟩
      have : P.rm.next_thread_id = j := g4 hf
      exact absurd (this.symm.trans hcur) hj

theorem staged_orderly (colors : Int → Bool) (programs : Int → List Call)
    (halt : ∀ id, alternating 0 (programs id) = true) (P : Pool)
    (h : Staged (Pool.start colors programs) P) : Orderly P := by
  induction h with
  | start => exact orderly_start colors programs halt
  | next a _ hs ih => exact orderly_stage _ _ a ih hs

/-- The colour of a thread never changes. -/
theorem staged_color (colors : Int → Bool) (programs : Int → List Call) (P : Pool)
    (h : Staged (Pool.start colors programs) P) (id : Int) :
    (P.threads id).is_white = colors id := by
  induction h with
  | start => rfl
  | next a _ hs ih =>
    cases a with
    | pass j =>
      obtain ⟨-, -, -, rfl⟩ := stage_pass_eq _ _ j hs
      by_cases hj : id = j
      · subst hj
        simp only [put_same]
        exact ih
      · simp only [put_other _ j id _ hj]
        exact ih
    | commit j =>
      obtain ⟨rest, -, -, -, rfl⟩ := stage_commit_eq _ _ j hs
      by_cases hj : id = j
      · subst hj
        simp only [put_same]
        exact ih
      · simp only [put_other _ j id _ hj]
        exact ih
    | release j =>
      obtain ⟨rest, -, -, rfl⟩ := stage_release_eq _ _ j hs
      by_cases hj : id = j
      · subst hj
        simp only [put_same]
        exact ih
      · simp only [put_other _ j id _ hj]
        exact ih

/-- A thread between the two waits is granted as soon as the colour allows. -/
theorem stage_commit_enabled (P : Pool) (id : Int) (rest : List Call)
    (htodo : (P.threads id).todo = Call.acquire :: rest)
    (hb : (P.threads id).between = true)
    (hc : color_ready P.rm (P.threads id).is_white = true) :
    ∃ Q, stage P (.commit id) = some Q := by
  simp only [stage, htodo, hb, hc, and_self, if_true]
  exact ⟨_, rfl⟩

/-- C14, as stated, fails when an identity acquires again while it holds the
resource.  Thread 0 (white) acquires twice and releases once, thread 1 (white)
acquires and releases, thread 2 (black) passes the first wait at cursor 2 and
is suspended in the second wait, thread 0 releases a second time and moves the
cursor back to 1: thread 2 is now granted in a state where
`next_thread_id == 1`, in which a single wait on the compound predicate does
not grant.  Identities are distinct with one colour each and every release is
made by a holder with its own identity. -/
theorem two_stage_grants_off_turn :
    ∃ P Q, Staged (Pool.start nestedColors nestedPrograms) P ∧
      stage P (.commit 2) = some Q ∧
      P.rm.next_thread_id = 1 ∧
      compound_ready P.rm (nestedColors 2) 2 = false := by
  have h1 : (stages (Pool.start nestedColors nestedPrograms) nestedSchedule).isSome = true := by
    decide
  obtain ⟨P, hP⟩ := Option.isSome_iff_exists.1 h1
  have h2 : (stages (Pool.start nestedColors nestedPrograms) nestedSchedule).map
      (fun P => P.rm) =
      some { current_color := .NONE, active_threads := 0, next_thread_id := 1 } := by
    decide
  have h3 : ((stages (Pool.start nestedColors nestedPrograms) nestedSchedule).bind
      (fun P => stage P (.commit 2))).isSome = true := by
    decide
  rw [hP] at h2 h3
  simp only [Option.map_some', Option.some.injEq] at h2
  simp only [Option.some_bind] at h3
  obtain ⟨Q, hQ⟩ := Option.isSome_iff_exists.1 h3
  refine ⟨P, Q, staged_of_stages _ _ _ _ Staged.start hP, hQ, ?_, ?_⟩
  · rw [h2]
  · rw [h2]
    decide

/-- C14 (amended): with one thread per identity, a fixed colour each, every
release made by a holder with its own identity, and no identity calling
`acquire` again before it has released, every grant of the two-stage `acquire`
happens in a state where the compound predicate
`(next_thread_id == id) && (current_color ∈ {NONE, color})` holds; conversely a
thread whose next call is `acquire` is granted by the two stages in every state
where the compound predicate holds. -/
theorem two_stage_grants_on_compound (colors : Int → Bool) (programs : Int → List Call)
    (halt : ∀ id, alternating 0 (programs id) = true) (P : Pool)
    (h : Staged (Pool.start colors programs) P) (id : Int) :
    (∀ Q, stage P (.commit id) = some Q → compound_ready P.rm (colors id) id = true) ∧
    (∀ rest, (P.threads id).todo = Call.acquire :: rest →
      compound_ready P.rm (colors id) id = true →
      ∃ Q, stage P (.commit id) = some Q ∨
        ∃ P1, stage P (.pass id) = some P1 ∧ P1.rm = P.rm ∧
          stage P1 (.commit id) = some Q) := by
  have hcol := staged_color colors programs P h id
  constructor
  · intro Q hQ
    obtain ⟨rest, -, hb, hc, -⟩ := stage_commit_eq P Q id hQ
    have hcur := (staged_orderly colors programs halt P h id).2.2.2 (Or.inl hb)
    rw [compound_ready_iff, ← hcol]
    exact ⟨(turn_ready_iff _ _).2 hcur, hc⟩
  · intro rest htodo hready
    rw [compound_ready_iff, ← hcol] at hready
    obtain ⟨ht, hc⟩ := hready
    cases hb : (P.threads id).between with
    | true =>
      obtain ⟨Q, hQ⟩ := stage_commit_enabled P id rest htodo hb hc
      exact ⟨Q, Or.inl hQ⟩
    | false =>
      have hpass : stage P (.pass id) =
          some { P with threads := P.put id { P.threads id with between := true } } := by
        simp only [stage, htodo, hb, ht, and_self, if_true]
      obtain ⟨Q, hQ⟩ := stage_commit_enabled
        { P with threads := P.put id { P.threads id with between := true } } id rest
        (by simp only [put_same, htodo]) (by simp only [put_same])
        (by simp only [put_same]; exact hc)
      exact ⟨Q, Or.inr ⟨_, hpass, rfl, hQ⟩⟩

theorem two_stage_grants_on_compound_witness :
    (∀ id, alternating 0 (harnessPrograms id) = true) ∧
    ∃ P, Staged (Pool.start (fun id => id % 2 == 0) harnessPrograms) P ∧
      ((∀ Q, stage P (.commit 0) = some Q →
          compound_ready P.rm ((fun id : Int => id % 2 == 0) 0) 0 = true) ∧
       (∀ rest, (P.threads 0).todo = Call.acquire :: rest →
          compound_ready P.rm ((fun id : Int => id % 2 == 0) 0) 0 = true →
          ∃ Q, stage P (.commit 0) = some Q ∨
            ∃ P1, stage P (.pass 0) = some P1 ∧ P1.rm = P.rm ∧
              stage P1 (.commit 0) = some Q)) := by
  have halt : ∀ id, alternating 0 (harnessPrograms id) = true := by
    intro id
    unfold harnessPrograms
    split <;> rfl
  have h1 : (stages (Pool.start (fun id => id % 2 == 0) harnessPrograms)
      [.pass 0]).isSome = true := by
    decide
  obtain ⟨P, hP⟩ := Option.isSome_iff_exists.1 h1
  have hS := staged_of_stages _ _ _ _ Staged.start hP
  exact ⟨halt, P, hS, two_stage_grants_on_compound _ harnessPrograms halt P hS 0⟩

end ThreadAlt
